import Mathlib

/-!
Shallow embedding of the dungeon generator's passage-routing core
(`src/voxel_map.rs`, `src/btree_key_values.rs`, `src/constants.rs`,
`src/room.rs`, `src/passage.rs`, `src/generate_drd.rs`) together with
proofs about the claims on those components.

Conventions:
* Rust `HashMap<Vector3<i32>, V>` values are embedded as functions
  `Pt → Option V`; only key-based access ever occurs in the source, so the
  function view is exact.
* Rust `BTreeSet<Direction4>` values are embedded as canonically sorted,
  duplicate-free lists (the derived `Ord` on `Direction4` orders the
  constructors in declaration order, which is the order of `DIRECTIONS`, so
  every set built by filtering `DIRECTIONS` is already canonical).
* Rust `BTreeMap<K, VecDeque<V>>` (the ordered-bucket queue) is embedded as
  a list of (key, bucket) pairs kept sorted by strictly increasing key.
* Machine integers (`i32`, `u32`) are embedded as `Int`/`Nat`; none of the
  verified claims exercises wrap-around, and `f32` room centres are embedded
  by their exact value for the coordinate ranges the generator uses.
-/

namespace DungeonGen

/-- Integer voxel coordinate, embedding `nalgebra::Vector3<i32>`. -/
structure Pt where
  x : Int
  y : Int
  z : Int
deriving DecidableEq

/-- Componentwise addition of coordinates (`Vector3` addition). -/
def Pt.add (a b : Pt) : Pt := ⟨a.x + b.x, a.y + b.y, a.z + b.z⟩

/-- Room identifiers (`RoomId(u64)` in `room.rs`). -/
abbrev RoomId := Nat

/-- The four cardinal horizontal directions (`constants.rs`). -/
inductive Direction4 where
  | left
  | right
  | far
  | near
deriving DecidableEq

/-- `Direction4::to_vec3` from `constants.rs`. -/
def Direction4.to_vec3 : Direction4 → Pt
  | .left => ⟨-1, 0, 0⟩
  | .right => ⟨1, 0, 0⟩
  | .far => ⟨0, 0, -1⟩
  | .near => ⟨0, 0, 1⟩

/-- `Direction4::is_opposite` from `constants.rs`, embedded exactly as
written: note that the `Near` arm compares against `Right`. -/
def Direction4.is_opposite : Direction4 → Direction4 → Bool
  | .left, other => other = .right
  | .right, other => other = .left
  | .far, other => other = .near
  | .near, other => other = .right

/-- The static array `DIRECTIONS` from `constants.rs`. -/
def DIRECTIONS : List Direction4 := [.left, .right, .far, .near]

/-- Voxel classification (`VoxelType` in `constants.rs`). -/
inductive VoxelType where
  | roomSpace (rid : RoomId)
  | roomFloor (rid : RoomId)
  | roomBottomSpace (rid : RoomId)
  | roomWall (rid : RoomId)
  | wall
  | passageStair (dir : Direction4)
  | passageSpace
  | passageFloor
deriving DecidableEq

/-- Sparse voxel store: the `map: HashMap<Vector3<i32>, VoxelType>` field,
viewed as a function (absent key ↦ `none`). -/
abbrev VMap := Pt → Option VoxelType

/-- Pointwise `HashMap::insert`. -/
def VMap.insert (m : VMap) (p : Pt) (v : VoxelType) : VMap :=
  fun q => if q = p then some v else m q

/-- `Room` from `room.rs`; `center_offset` is derived from the sizes by
`Room::new`, so it is not stored separately. Origin components are
(x, y, z) as in the source tuple. -/
structure Room where
  id : RoomId
  width : Nat
  height : Nat
  depth : Nat
  origin : Nat × Nat × Nat
deriving DecidableEq

/-- `Passage` from `passage.rs` (the `cells` field is never read by the
router and is omitted). `start_dirs` is a canonical sorted list standing
for the `BTreeSet<Direction4>`. -/
structure Passage where
  start : Pt
  start_dirs : List Direction4
  start_room_id : RoomId
  end_room_id : RoomId
  height : Int

/-- `VoxelMap` from `voxel_map.rs`: sparse store plus half-open bounds. -/
structure VoxelMap where
  map : VMap
  vstart : Pt
  vend : Pt

/-- `VoxelMapError` from `voxel_map.rs`. -/
inductive VoxelMapError where
  | conflict
  | noRoom (rid : RoomId)
  | unreachable
deriving DecidableEq

/-! ### The ordered-bucket queue (`btree_key_values.rs`)

`BTreeKeyValues<K, V>` is a `BTreeMap<K, VecDeque<V>>`.  The embedding is a
list of (key, bucket) pairs sorted by strictly increasing key; buckets keep
their `VecDeque` order (front first). -/

/-- `BTreeKeyValues::push_back`: append `v` at the back of key `k`'s bucket,
creating the bucket at its sorted position when absent. -/
def push_back {K V : Type} [LinearOrder K] :
    List (K × List V) → K → V → List (K × List V)
  | [], k, v => [(k, [v])]
  | (k0, vs) :: rest, k, v =>
    if k < k0 then (k, [v]) :: (k0, vs) :: rest
    else if k = k0 then (k0, vs ++ [v]) :: rest
    else (k0, vs) :: push_back rest k v

/-- `BTreeKeyValues::pop_first_back`: pop the front of the smallest key's
bucket.  The recursive call mirrors the `continue` taken in the source when
the popped bucket is empty. -/
def pop_first_back {K V : Type} :
    List (K × List V) → Option (V × List (K × List V))
  | [] => none
  | (k, vs) :: rest =>
    match vs with
    | [] => pop_first_back rest
    | v :: vtail =>
      match vtail with
      | [] => some (v, rest)
      | t :: ts => some (v, (k, t :: ts) :: rest)

/-- Bucket contents under a key (`[]` when the key is absent).  This is the
observation function for the queue laws. -/
def qLookup {K V : Type} [DecidableEq K] : List (K × List V) → K → List V
  | [], _ => []
  | (k0, vs) :: rest, k => if k = k0 then vs else qLookup rest k

/-! ### The passage router (`VoxelMap::add_passage` in `voxel_map.rs`) -/

/-- The local `RouteKey` enum of `add_passage`.  `movable_dirs` is the
canonical sorted list standing for the `BTreeSet<Direction4>`. -/
inductive RouteKey where
  | parallelShift (movable_dirs : List Direction4)
  | stair (dir : Direction4)
deriving DecidableEq

/-- `RouteKey::contains`: a `ParallelShift` contains another iff the other's
movable set is a subset of its own; a `Stair` contains only itself; the two
variants never contain each other. -/
def RouteKey.contains : RouteKey → RouteKey → Bool
  | s, .parallelShift movable_dirs =>
    match s with
    | .parallelShift self_movable_dirs =>
      movable_dirs.all fun d => self_movable_dirs.contains d
    | .stair _ => false
  | s, .stair d => s == .stair d

/-- The local `Route` struct of `add_passage`. -/
structure Route where
  key : RouteKey
  point : Pt
  cost : Int
  map : VMap

/-- `calc_score` from `voxel_map.rs`.  `Room::center` returns
`origin + size / 2` as `f32`; the `as i32` casts truncate, which for the
non-negative coordinate ranges the generator uses equals `origin + size / 2`
in integer division.  The y component uses `room.origin.1` (the origin's y)
directly, as in the source. -/
def calc_score (room : Room) (start : Pt) (cost : Int) : Int :=
  let cx : Int := (room.origin.1 : Int) + (room.width / 2 : Nat)
  let cz : Int := (room.origin.2.2 : Int) + (room.depth / 2 : Nat)
  let oy : Int := (room.origin.2.1 : Int)
  (|cx - start.x| + |oy - start.y| + |cz - start.z|) * 10 + cost

/-- `DIRECTIONS.iter().filter(|d| !m.is_opposite(d))`, the movable set given
to every freshly enqueued `ParallelShift` route. -/
def next_movable_dirs (m : Direction4) : List Direction4 :=
  DIRECTIONS.filter fun d => !(m.is_opposite d)

/-- The free function `add_passage` in `voxel_map.rs` (the per-step corridor
write attempt).  Reads consult the committed map first, then the proposal;
`none` is the `false` (geometry-rejected) return.  The helper writes the
column of `PassageSpace` cells for `y ∈ [off, off+height)` shifted by `off`,
so it also serves the stair variant. -/
def write_spaces (point : Pt) (ro : VMap) : VMap → List Int → Option VMap
  | w, [] => some w
  | w, y :: rest =>
    let sp : Pt := ⟨point.x, point.y + y, point.z⟩
    let s := (ro sp).or (w sp)
    if s.isSome && s != some VoxelType.passageSpace then none
    else write_spaces point ro (w.insert sp .passageSpace) rest

/-- The free function `add_passage` in `voxel_map.rs` (corridor cell write
attempt at `point`). -/
def add_passage_cells (point : Pt) (height : Int) (ro w : VMap) : Option VMap :=
  let ground : Pt := ⟨point.x, point.y - 1, point.z⟩
  let g := (ro ground).or (w ground)
  if g.isSome && g != some VoxelType.passageFloor then none
  else
    write_spaces point ro (w.insert ground .passageFloor)
      ((List.range height.toNat).map Int.ofNat)

/-- The free function `add_stair` in `voxel_map.rs` (stair cell write
attempt at `point` rising in `dir`). -/
def add_stair_cells (point : Pt) (height : Int) (dir : Direction4) (ro w : VMap) :
    Option VMap :=
  let g := (ro point).or (w point)
  if g.isSome then none
  else
    write_spaces point ro (w.insert point (.passageStair dir))
      ((List.range height.toNat).map fun y => (y : Int) + 1)

/-- Result of the dominance scan over the per-point accepted list
(lines 155–168 of `voxel_map.rs`): discard the route, replace entry `i`, or
append.  The scan checks the omit condition then the replace condition on
each entry in order and stops at the first hit. -/
inductive ScanResult where
  | omitted
  | replaceAt (i : Nat)
  | append
deriving DecidableEq

/-- The dominance scan of `add_passage`. -/
def scan_routes : List (RouteKey × Int) → RouteKey → Int → ScanResult
  | [], _, _ => .append
  | (k0, c0) :: rest, k, c =>
    if k0.contains k && decide (c0 ≤ c) then .omitted
    else if k.contains k0 && decide (c < c0) then .replaceAt 0
    else
      match scan_routes rest k c with
      | .omitted => .omitted
      | .replaceAt i => .replaceAt (i + 1)
      | .append => .append

/-- Lines 151–186 of `voxel_map.rs`: the per-point accepted-list update for a
dequeued route.  `none` means the route is skipped (`continue`); `some l` is
the updated list.  In the source an absent point bypasses the cap check and
the scan, but on the empty list both are no-ops (`0 > 10` is false and the
scan of `[]` yields `append`), so the function below is exact for both
branches. -/
def route_map_update (l : List (RouteKey × Int)) (k : RouteKey) (c : Int) :
    Option (List (RouteKey × Int)) :=
  if 10 < l.length then none
  else
    match scan_routes l k c with
    | .omitted => none
    | .replaceAt i => some (l.set i (k, c))
    | .append => some (l ++ [(k, c)])

/-- The `route_map: HashMap<Vector3<i32>, Vec<(RouteKey, i32)>>` of
`add_passage`, viewed as a function (absent point ↦ `[]`). -/
abbrev RouteMap := Pt → List (RouteKey × Int)

/-- Read-only data of one `add_passage` call. -/
structure RouterCtx where
  selfMap : VMap
  vstart : Pt
  vend : Pt
  endRoom : Room
  height : Int

/-- Mutable state of the `add_passage` search loop. -/
structure RouterState where
  queue : List (Int × List Route)
  routeMap : RouteMap

/-- Enqueue the `ParallelShift`/`Stair` successor pair at `next_point`
reached by moving in `m`, as in lines 196–225 and 240–267 of
`voxel_map.rs`.  Both routes carry `next_const` as queue key *and* as their
stored cost, exactly as in the source (`cost: next_const`). -/
def push_pair (endRoom : Room) (q : List (Int × List Route)) (next_point : Pt)
    (parent_cost : Int) (wm : VMap) (m : Direction4) : List (Int × List Route) :=
  let next_const := calc_score endRoom next_point (parent_cost + 1)
  let q1 := push_back q next_const
    { key := .parallelShift (next_movable_dirs m), point := next_point,
      cost := next_const, map := wm }
  push_back q1 next_const
    { key := .stair m, point := next_point, cost := next_const, map := wm }

/-- Initial seeding of the queue (lines 103–130 of `voxel_map.rs`): for each
start direction, a `ParallelShift` and a `Stair` route at `start + d̂`, both
with cost 0 and empty proposal. -/
def seed_queue (endRoom : Room) (passage : Passage) : List (Int × List Route) :=
  passage.start_dirs.foldl
    (fun q start_dir =>
      let next_point := passage.start.add start_dir.to_vec3
      let next_score := calc_score endRoom next_point 0
      let q1 := push_back q next_score
        { key := .parallelShift (next_movable_dirs start_dir),
          point := next_point, cost := 0, map := fun _ => none }
      push_back q1 next_score
        { key := .stair start_dir, point := next_point, cost := 0,
          map := fun _ => none })
    []

/-- The commit of a successful route (lines 144–146): every proposal entry is
inserted into the committed map, so the proposal wins where both are set. -/
def mergeProposal (prop base : VMap) : VMap := fun p => (prop p).or (base p)

/-- Outcome of one iteration of the `while let` loop. -/
inductive StepOut where
  | committed (m : VMap)
  | unreachable
  | next (s : RouterState)

/-- One iteration of the `add_passage` main loop (lines 132–270 of
`voxel_map.rs`): pop the best route, bounds check, goal check, dominance
check, write attempt, successor enqueue. -/
def router_step (ctx : RouterCtx) (s : RouterState) : StepOut :=
  match pop_first_back s.queue with
  | none => .unreachable
  | some (route, q') =>
    if route.point.x < ctx.vstart.x ∨ route.point.y < ctx.vstart.y
        ∨ route.point.z < ctx.vstart.z ∨ ctx.vend.x ≤ route.point.x
        ∨ ctx.vend.y ≤ route.point.y ∨ ctx.vend.z ≤ route.point.z then
      .next ⟨q', s.routeMap⟩
    else if ctx.selfMap route.point = some (.roomBottomSpace ctx.endRoom.id) then
      .committed (mergeProposal route.map ctx.selfMap)
    else
      match route_map_update (s.routeMap route.point) route.key route.cost with
      | none => .next ⟨q', s.routeMap⟩
      | some l' =>
        let rm' : RouteMap := fun p => if p = route.point then l' else s.routeMap p
        match route.key with
        | .parallelShift movable_dirs =>
          match add_passage_cells route.point ctx.height ctx.selfMap route.map with
          | none => .next ⟨q', rm'⟩
          | some wm =>
            .next ⟨movable_dirs.foldl
              (fun q m => push_pair ctx.endRoom q (route.point.add m.to_vec3)
                route.cost wm m) q', rm'⟩
        | .stair direction =>
          match add_stair_cells route.point ctx.height direction ctx.selfMap route.map with
          | none => .next ⟨q', rm'⟩
          | some wm =>
            .next ⟨push_pair ctx.endRoom q'
              ((route.point.add direction.to_vec3).add ⟨0, 1, 0⟩)
              route.cost wm direction, rm'⟩

/-- Outcome of running the loop to completion under a fuel bound. -/
inductive RouteOutcome where
  | committed (m : VMap)
  | unreachable
  | noFuel

/-- The `while let` loop of `add_passage`, fuelled. -/
def router_loop (ctx : RouterCtx) : Nat → RouterState → RouteOutcome
  | 0, _ => .noFuel
  | fuel + 1, s =>
    match router_step ctx s with
    | .committed m => .committed m
    | .unreachable => .unreachable
    | .next s' => router_loop ctx fuel s'

/-- One loop iteration as a total state transformer (terminal outcomes are
absorbing); used to speak about every intermediate state of the search. -/
def router_advance (ctx : RouterCtx) (s : RouterState) : RouterState :=
  match router_step ctx s with
  | .next s' => s'
  | _ => s

/-- `n` loop iterations from `s`. -/
def router_iter (ctx : RouterCtx) : Nat → RouterState → RouterState
  | 0, s => s
  | n + 1, s => router_iter ctx n (router_advance ctx s)

/-- The router context and start state of one `add_passage` call. -/
def router_ctx (vm : VoxelMap) (end_room : Room) (passage : Passage) : RouterCtx :=
  ⟨vm.map, vm.vstart, vm.vend, end_room, passage.height⟩

/-- `VoxelMap::add_passage` (lines 60–273 of `voxel_map.rs`), fuelled.
`none` means the fuel ran out mid-search; otherwise the pair is the returned
`Result` and the voxel map after the call. -/
def VoxelMap.add_passage (fuel : Nat) (vm : VoxelMap) (passage : Passage)
    (rooms : List (RoomId × Room)) : Option (Except VoxelMapError Unit × VoxelMap) :=
  match rooms.lookup passage.end_room_id with
  | none => some (.error (.noRoom passage.end_room_id), vm)
  | some end_room =>
    let s0 : RouterState := ⟨seed_queue end_room passage, fun _ => []⟩
    match router_loop (router_ctx vm end_room passage) fuel s0 with
    | .committed m => some (.ok (), { vm with map := m })
    | .unreachable => some (.error .unreachable, vm)
    | .noFuel => none

/-! ### `VoxelMap::add_room` (lines 35–58 of `voxel_map.rs`) -/

/-- The room shell cells in the exact iteration order of `add_room`
(`y` from −1, then `z`, then `x`), each with the class written there. -/
def room_cells (room : Room) : List (Pt × VoxelType) :=
  ((List.range (room.height + 1)).product
      ((List.range room.depth).product (List.range room.width))).map
    fun t =>
      let p : Pt := ⟨(t.2.2 : Int) + (room.origin.1 : Int),
        ((t.1 : Int) - 1) + (room.origin.2.1 : Int),
        (t.2.1 : Int) + (room.origin.2.2 : Int)⟩
      let v : VoxelType :=
        if t.1 = 0 then .roomFloor room.id
        else if t.1 = 1 then .roomBottomSpace room.id
        else .roomSpace room.id
      (p, v)

/-- The cell-by-cell body of `add_room`: check occupancy, then insert; on the
first occupied cell return `Conflict` with the map as mutated so far. -/
def add_room_cells : VMap → List (Pt × VoxelType) → Option VoxelMapError × VMap
  | m, [] => (none, m)
  | m, (p, v) :: rest =>
    if (m p).isSome then (some .conflict, m)
    else add_room_cells (m.insert p v) rest

/-- `VoxelMap::add_room`. -/
def VoxelMap.add_room (vm : VoxelMap) (room : Room) :
    Option VoxelMapError × VoxelMap :=
  let r := add_room_cells vm.map (room_cells room)
  (r.1, { vm with map := r.2 })

/-! ### Config validation (`generate_dungeon_3d`, lines 69–88 of
`generate_drd.rs`) -/

/-- `Dungeon3DGeneratorError` from `generate_drd.rs`. -/
inductive Dungeon3DGeneratorError where
  | narrowWidthOrRoomWidthTooLarge
  | narrowDepthOrRoomDepthTooLarge
  | narrowHeightOrRoomHierarchyTooSmall
  | voxelMapError (e : VoxelMapError)
deriving DecidableEq

/-- The configuration fields consulted by the validation phase
(`Dungeon3DGeneratorConfig`); ranges are (start, end) pairs of the
inclusive `RangeInclusive` bounds. -/
structure Dungeon3DGeneratorConfig where
  width : Nat
  height : Nat
  depth : Nat
  room_hierarchy : Nat
  room_width_range : Nat × Nat
  room_height_range : Nat × Nat
  room_depth_range : Nat × Nat
  room_margin_x : Nat
  room_margin_y : Nat
  room_margin_z : Nat
  passage_height : Nat
  margin_for_bounds : Nat
deriving DecidableEq

/-- The deterministic validation prefix of `generate_dungeon_3d` (margin
clamping plus the three narrow checks, lines 69–88).  It runs before the
random generator is even constructed, and the rest of `generate_dungeon_3d`
never produces any of the three narrow errors.  Note the second check reads
`config.width` (not `config.depth`) and divides by the *upper* bound of
`room_depth_range`, exactly as the source does. -/
def validate_config (config : Dungeon3DGeneratorConfig) : Option Dungeon3DGeneratorError :=
  let room_margin_x := max config.room_margin_x 1
  let room_margin_y := max config.room_margin_y 1
  let room_margin_z := max config.room_margin_z 1
  let w_divisions_min := config.width / (config.room_width_range.2 + room_margin_x)
  if w_divisions_min = 0 then some .narrowWidthOrRoomWidthTooLarge
  else
    let d_divisions_min := config.width / (config.room_depth_range.2 + room_margin_z)
    if d_divisions_min = 0 then some .narrowDepthOrRoomDepthTooLarge
    else if config.height < config.room_hierarchy * (config.room_height_range.1 + room_margin_y)
    then some .narrowHeightOrRoomHierarchyTooSmall
    else none

/-! ### Observation helpers and concrete fixtures used by the theorems -/

/-- Queue keys paired with the stored costs of their routes, observed after
one router step (yields `[]` on a terminal step). -/
def step_queue_key_costs (ctx : RouterCtx) (s : RouterState) : List (Int × List Int) :=
  match router_step ctx s with
  | .next s' => s'.queue.map fun b => (b.1, b.2.map Route.cost)
  | _ => []

/-- The seven route keys `add_passage` can ever construct: the three movable
sets `DIRECTIONS.filter (!d.is_opposite ·)` produces (because of the `Near`
arm of `is_opposite`, the directions `Left` and `Near` produce the same
set), and the four stairs. -/
def gks : List RouteKey :=
  [.parallelShift [.left, .far, .near], .parallelShift [.right, .far, .near],
   .parallelShift [.left, .right, .far],
   .stair .left, .stair .right, .stair .far, .stair .near]

/-- A room used as routing target in concrete evaluations. -/
def room2 : Room := ⟨2, 1, 1, 1, (0, 0, 0)⟩

/-- Router context with an empty committed map and wide bounds. -/
def ctx0 : RouterCtx := ⟨fun _ => none, ⟨-100, -100, -100⟩, ⟨100, 100, 100⟩, room2, 1⟩

/-- A single `ParallelShift` route with cost 0, three cells from `room2`'s
centre column. -/
def st0 : RouterState :=
  ⟨[(0, [{ key := .parallelShift [.left], point := ⟨3, 0, 0⟩, cost := 0,
           map := fun _ => none }])], fun _ => []⟩

/-- A per-point accepted list holding exactly 10 entries. -/
def l10c3 : List (RouteKey × Int) :=
  (List.range 10).map fun i => (.parallelShift [.left], (i : Int) + 1)

/-- A per-point accepted list holding 11 entries. -/
def l11c3 : List (RouteKey × Int) := l10c3 ++ [(.stair .right, 5)]

/-- A committed map whose only occupied cell is (1,0,0). -/
def m0 : VMap := fun p => if p = ⟨1, 0, 0⟩ then some .passageFloor else none

/-- Voxel map over `m0`. -/
def vm0 : VoxelMap := ⟨m0, ⟨0, 0, 0⟩, ⟨10, 10, 10⟩⟩

/-- An empty voxel map. -/
def vmE : VoxelMap := ⟨fun _ => none, ⟨0, 0, 0⟩, ⟨8, 8, 8⟩⟩

/-- A 2×1×1 room whose floor layer covers (0,0,0) and (1,0,0). -/
def room0 : Room := ⟨1, 2, 1, 1, (0, 1, 0)⟩

/-- A passage descriptor towards room id 9. -/
def passage0 : Passage := ⟨⟨1, 1, 1⟩, [.left], 7, 9, 2⟩

/-- A configuration whose depth cannot fit one room row
(⌊2 / (5 + 1)⌋ = 0) but whose width is ample. -/
def c8config : Dungeon3DGeneratorConfig :=
  ⟨100, 10, 2, 1, (5, 5), (1, 1), (5, 5), 1, 1, 1, 2, 4⟩

/-! ### C5 — `is_opposite` and the geometric opposite -/

/-- C5: evaluation of `Direction4.is_opposite` at the defective arm.  The
claim states `is_opposite a b` holds exactly for geometric opposites and in
particular that `Near`'s opposite is `Far` with the relation symmetric; the
code instead answers `false` on `(Near, Far)` and `true` on `(Near, Right)`,
so the relation is also asymmetric (`(Far, Near)` answers `true`). -/
theorem c5_is_opposite_near_defect :
    Direction4.is_opposite .near .far = false ∧
    Direction4.is_opposite .far .near = true ∧
    Direction4.is_opposite .near .right = true ∧
    Direction4.is_opposite .right .near = false := by
  decide

/-! ### C8 — the depth validation check -/

/-- C8 counterexample: for `c8config` the claimed trigger condition
⌊depth / (room_depth_min + clamped margin_z)⌋ = 0 holds, yet validation
succeeds, because the source divides `config.width` (not `config.depth`) by
the *upper* depth bound. -/
theorem c8_narrow_depth_counterexample :
    c8config.depth / (c8config.room_depth_range.1 + max c8config.room_margin_z 1) = 0 ∧
    validate_config c8config = none := by
  decide

/-- C8 amended: validation returns `NarrowDepthOrRoomDepthTooLarge` exactly
when the width check passes and ⌊width / (room_depth_max + clamped
margin_z)⌋ = 0, where room_depth_max is the upper bound of
`room_depth_range` — the dividend is `width` and the bound is the upper one,
unlike the claim's `depth` and lower bound. -/
theorem c8_narrow_depth_amended (config : Dungeon3DGeneratorConfig) :
    validate_config config = some .narrowDepthOrRoomDepthTooLarge ↔
      (config.width / (config.room_width_range.2 + max config.room_margin_x 1) ≠ 0 ∧
       config.width / (config.room_depth_range.2 + max config.room_margin_z 1) = 0) := by
  simp only [validate_config]
  split_ifs with h1 h2 h3 <;> simp_all

/-! ### C2 — successor costs and queue keys -/

/-- C2: evaluation at a failing input.  From the parent `ParallelShift`
route in `st0` (path cost so far 0, at (3,0,0), movable set `{Left}`), the
router enqueues its two successors at (2,0,0) under queue key
21 = Manhattan·10 + (0+1) — and stores 21, the *queue key*, as each
successor's cost, where the claim requires the stored cost to be the path
cost 0 + 1 = 1. -/
theorem c2_successor_cost_is_score :
    step_queue_key_costs ctx0 st0 = [(21, [21, 21])] ∧ ((21 : Int) ≠ 0 + 1) := by
  exact ⟨rfl, by decide⟩

/-! ### C4 — `add_room` atomicity -/

/-- C4 counterexample: `add_room` of `room0` on `vm0` hits the occupied cell
(1,0,0) second, returns `Conflict`, and leaves the previously free cell
(0,0,0) newly classified `RoomFloor` — the map after the failing call
differs from the map before it. -/
theorem c4_add_room_not_atomic :
    (vm0.add_room room0).1 = some .conflict ∧
    (vm0.add_room room0).2.map ⟨0, 0, 0⟩ = some (.roomFloor 1) ∧
    vm0.map ⟨0, 0, 0⟩ = none := by
  decide

/-- The shell cells of a room are pairwise distinct coordinates: the loop
indices can be read back off the coordinates. -/
theorem room_cells_points_nodup (room : Room) :
    ((room_cells room).map Prod.fst).Nodup := by
  unfold room_cells
  rw [List.map_map]
  apply List.Nodup.map
  · intro a b hab
    obtain ⟨ay, az, ax⟩ := a
    obtain ⟨by', bz, bx⟩ := b
    simp only [Function.comp, Pt.mk.injEq] at hab
    obtain ⟨h1, h2, h3⟩ := hab
    have hx : ax = bx := by omega
    have hy : ay = by' := by omega
    have hz : az = bz := by omega
    simp [hx, hy, hz]
  · exact (List.nodup_range _).product ((List.nodup_range _).product (List.nodup_range _))

/-- Cells not listed are never written by the cell loop, whether it
succeeds or conflicts. -/
theorem add_room_cells_frame (cells : List (Pt × VoxelType)) :
    ∀ (m : VMap) (p : Pt), (∀ pv ∈ cells, pv.1 ≠ p) →
      (add_room_cells m cells).2 p = m p := by
  induction cells with
  | nil => intro m p _; rfl
  | cons hd tl ih =>
    obtain ⟨q, v⟩ := hd
    intro m p hout
    have hq : q ≠ p := hout (q, v) (List.mem_cons_self _ _)
    simp only [add_room_cells]
    by_cases hm : (m q).isSome
    · rw [if_pos hm]
    · rw [if_neg hm]
      rw [ih (m.insert q v) p fun pv hpv => hout pv (List.mem_cons_of_mem _ hpv)]
      simp only [VMap.insert]
      rw [if_neg fun h : p = q => hq (Eq.symm h)]

/-- The cell loop reports `Conflict` exactly when some listed cell is
occupied in the starting map (given distinct cells). -/
theorem add_room_cells_conflict (cells : List (Pt × VoxelType)) :
    ∀ m : VMap, (cells.map Prod.fst).Nodup →
      ((add_room_cells m cells).1 = some .conflict ↔
        ∃ pv ∈ cells, (m pv.1).isSome) := by
  induction cells with
  | nil => intro m _; simp [add_room_cells]
  | cons hd tl ih =>
    obtain ⟨q, v⟩ := hd
    intro m hnd
    rw [List.map_cons, List.nodup_cons] at hnd
    obtain ⟨hq, htl⟩ := hnd
    simp only [add_room_cells]
    by_cases hm : (m q).isSome
    · rw [if_pos hm]
      exact ⟨fun _ => ⟨(q, v), List.mem_cons_self _ _, hm⟩, fun _ => rfl⟩
    · rw [if_neg hm]
      rw [ih (m.insert q v) htl]
      constructor
      · rintro ⟨pv, hmem, hsome⟩
        refine ⟨pv, List.mem_cons_of_mem _ hmem, ?_⟩
        have hne : pv.1 ≠ q := by
          intro h
          exact hq (h ▸ List.mem_map.mpr ⟨pv, hmem, rfl⟩)
        simpa [VMap.insert, hne] using hsome
      · rintro ⟨pv, hmem, hsome⟩
        rcases List.mem_cons.mp hmem with h | h
        · subst h; exact absurd hsome hm
        · refine ⟨pv, h, ?_⟩
          by_cases hne : pv.1 = q
          · simp [VMap.insert, hne]
          · simpa [VMap.insert, hne] using hsome

/-- On success every listed cell carries its class in the final map (given
distinct cells). -/
theorem add_room_cells_written (cells : List (Pt × VoxelType)) :
    ∀ m : VMap, (cells.map Prod.fst).Nodup →
      (add_room_cells m cells).1 = none →
      ∀ pv ∈ cells, (add_room_cells m cells).2 pv.1 = some pv.2 := by
  induction cells with
  | nil => intro m _ _ pv hpv; cases hpv
  | cons hd tl ih =>
    obtain ⟨q, v⟩ := hd
    intro m hnd hok pv hpv
    rw [List.map_cons, List.nodup_cons] at hnd
    obtain ⟨hq, htl⟩ := hnd
    simp only [add_room_cells] at hok ⊢
    by_cases hm : (m q).isSome
    · rw [if_pos hm] at hok; cases hok
    · rw [if_neg hm] at hok ⊢
      rcases List.mem_cons.mp hpv with h | h
      · subst h
        have hframe := add_room_cells_frame tl (m.insert q v) q
          fun pv' hpv' h' => hq (h' ▸ List.mem_map.mpr ⟨pv', hpv', rfl⟩)
        rw [hframe]
        simp [VMap.insert]
      · exact ih (m.insert q v) htl hok pv h

/-- C4 amended: `add_room` returns `Conflict` exactly when some shell cell
is already occupied, and on `Conflict` cells outside the shell keep their
previous classification (cells visited before the conflicting one, however,
remain inserted, so the call is not atomic); on success every shell cell
carries its class. -/
theorem c4_add_room_conflict_amended (vm : VoxelMap) (room : Room) :
    ((vm.add_room room).1 = some .conflict ↔
      ∃ pv ∈ room_cells room, (vm.map pv.1).isSome) ∧
    (∀ p : Pt, (∀ pv ∈ room_cells room, pv.1 ≠ p) →
      (vm.add_room room).2.map p = vm.map p) ∧
    ((vm.add_room room).1 = none →
      ∀ pv ∈ room_cells room, (vm.add_room room).2.map pv.1 = some pv.2) := by
  refine ⟨?_, ?_, ?_⟩
  · exact add_room_cells_conflict (room_cells room) vm.map (room_cells_points_nodup room)
  · intro p hp
    exact add_room_cells_frame (room_cells room) vm.map p hp
  · intro hok pv hpv
    exact add_room_cells_written (room_cells room) vm.map
      (room_cells_points_nodup room) hok pv hpv

/-- C4 witness: the amended theorem applied to the concrete conflicting call
(`vm0`, frame at the outside cell (5,5,5)) and to a succeeding call on the
empty map. -/
theorem c4_add_room_witness :
    (vm0.add_room room0).2.map ⟨5, 5, 5⟩ = vm0.map ⟨5, 5, 5⟩ ∧
    (∀ pv ∈ room_cells room0, (vmE.add_room room0).2.map pv.1 = some pv.2) :=
  ⟨(c4_add_room_conflict_amended vm0 room0).2.1 ⟨5, 5, 5⟩ (by decide),
   (c4_add_room_conflict_amended vmE room0).2.2 (by decide)⟩

/-! ### C7 — laws of the ordered-bucket queue -/

/-- Well-formedness maintained by the queue operations: keys strictly
increasing (the `BTreeMap` order) and no bucket empty. -/
def QWF {K V : Type} [LinearOrder K] (q : List (K × List V)) : Prop :=
  q.Pairwise (fun a b => a.1 < b.1) ∧ ∀ b ∈ q, b.2 ≠ []

/-- Every bucket key after a push is the pushed key or one already present. -/
theorem push_back_key_mem {K V : Type} [LinearOrder K] :
    ∀ (q : List (K × List V)) (k : K) (v : V), ∀ b ∈ push_back q k v,
      b.1 = k ∨ ∃ b' ∈ q, b.1 = b'.1 := by
  intro q k v
  induction q with
  | nil =>
    intro b hb
    rcases List.mem_singleton.mp hb with rfl
    exact Or.inl rfl
  | cons hd tl ih =>
    intro b hb
    simp only [push_back] at hb
    split_ifs at hb with h1 h2
    · rcases List.mem_cons.mp hb with rfl | hb'
      · exact Or.inl rfl
      · exact Or.inr ⟨b, hb', rfl⟩
    · rcases List.mem_cons.mp hb with rfl | hb'
      · exact Or.inr ⟨hd, List.mem_cons_self _ _, rfl⟩
      · exact Or.inr ⟨b, List.mem_cons_of_mem _ hb', rfl⟩
    · rcases List.mem_cons.mp hb with rfl | hb'
      · exact Or.inr ⟨hd, List.mem_cons_self _ _, rfl⟩
      · rcases ih b hb' with h | ⟨b', hb'', he⟩
        · exact Or.inl h
        · exact Or.inr ⟨b', List.mem_cons_of_mem _ hb'', he⟩

/-- `push_back` preserves well-formedness. -/
theorem qwf_push_back {K V : Type} [LinearOrder K] :
    ∀ (q : List (K × List V)) (k : K) (v : V), QWF q → QWF (push_back q k v) := by
  intro q k v
  induction q with
  | nil => intro _; exact ⟨List.pairwise_singleton _ _, by simp [push_back]⟩
  | cons hd tl ih =>
    rintro ⟨hpair, hne⟩
    rw [List.pairwise_cons] at hpair
    obtain ⟨hlt, htl⟩ := hpair
    simp only [push_back]
    split_ifs with h1 h2
    · refine ⟨List.pairwise_cons.mpr ⟨?_, List.pairwise_cons.mpr ⟨hlt, htl⟩⟩, ?_⟩
      · intro b hb
        rcases List.mem_cons.mp hb with rfl | hb'
        · exact h1
        · exact lt_trans h1 (hlt b hb')
      · intro b hb
        rcases List.mem_cons.mp hb with rfl | hb'
        · simp
        · exact hne b hb'
    · refine ⟨List.pairwise_cons.mpr ⟨?_, htl⟩, ?_⟩
      · intro b hb; exact h2 ▸ hlt b hb
      · intro b hb
        rcases List.mem_cons.mp hb with rfl | hb'
        · simp
        · exact hne b (List.mem_cons_of_mem _ hb')
    · have hq := ih ⟨htl, fun b hb => hne b (List.mem_cons_of_mem _ hb)⟩
      refine ⟨List.pairwise_cons.mpr ⟨?_, hq.1⟩, ?_⟩
      · intro b hb
        rcases push_back_key_mem tl k v b hb with he | ⟨b', hb', he⟩
        · rw [he]; push_neg at h1 h2; exact lt_of_le_of_ne h1 (Ne.symm h2)
        · rw [he]; exact hlt b' hb'
      · intro b hb
        rcases List.mem_cons.mp hb with rfl | hb'
        · exact hne hd (List.mem_cons_self _ _)
        · exact hq.2 b hb'

/-- `pop_first_back` preserves well-formedness. -/
theorem qwf_pop_first_back {K V : Type} [LinearOrder K]
    (q : List (K × List V)) (v : V) (q' : List (K × List V))
    (hq : QWF q) (h : pop_first_back q = some (v, q')) : QWF q' := by
  obtain ⟨hpair, hne⟩ := hq
  cases q with
  | nil => cases h
  | cons hd rest =>
    obtain ⟨k0, vs⟩ := hd
    cases vs with
    | nil => exact absurd rfl (hne (k0, []) (List.mem_cons_self _ _))
    | cons v0 tail =>
      simp only [pop_first_back] at h
      rw [List.pairwise_cons] at hpair
      obtain ⟨hlt, hrest⟩ := hpair
      cases tail with
      | nil =>
        cases h
        exact ⟨hrest, fun b hb => hne b (List.mem_cons_of_mem _ hb)⟩
      | cons t ts =>
        cases h
        refine ⟨List.pairwise_cons.mpr ⟨hlt, hrest⟩, ?_⟩
        intro b hb
        rcases List.mem_cons.mp hb with rfl | hb'
        · simp
        · exact hne b (List.mem_cons_of_mem _ hb')

/-- A key smaller than every bucket key has no bucket. -/
theorem qLookup_eq_nil_of_lt {K V : Type} [LinearOrder K] :
    ∀ (q : List (K × List V)) (k : K), (∀ b ∈ q, k < b.1) → qLookup q k = [] := by
  intro q k
  induction q with
  | nil => intro _; rfl
  | cons hd tl ih =>
    intro hall
    have : k ≠ hd.1 := ne_of_lt (hall hd (List.mem_cons_self _ _))
    obtain ⟨k0, vs⟩ := hd
    simp only [qLookup]
    rw [if_neg this]
    exact ih fun b hb => hall b (List.mem_cons_of_mem _ hb)

/-- A non-empty lookup means the key has a bucket. -/
theorem qLookup_ne_nil_mem {K V : Type} [LinearOrder K] :
    ∀ (q : List (K × List V)) (k : K), qLookup q k ≠ [] → ∃ b ∈ q, b.1 = k := by
  intro q k
  induction q with
  | nil => intro h; exact absurd rfl h
  | cons hd tl ih =>
    obtain ⟨k0, vs⟩ := hd
    intro h
    simp only [qLookup] at h
    by_cases he : k = k0
    · exact ⟨(k0, vs), List.mem_cons_self _ _, (he ▸ rfl : (k0, vs).1 = k)⟩
    · rw [if_neg he] at h
      obtain ⟨b, hb, hbe⟩ := ih h
      exact ⟨b, List.mem_cons_of_mem _ hb, hbe⟩

/-- Pushing appends the value at the back of its key's bucket. -/
theorem qLookup_push_back_self {K V : Type} [LinearOrder K] (k : K) (v : V) :
    ∀ q : List (K × List V), q.Pairwise (fun a b => a.1 < b.1) →
      qLookup (push_back q k v) k = qLookup q k ++ [v] := by
  intro q
  induction q with
  | nil => intro _; simp [push_back, qLookup]
  | cons hd tl ih =>
    obtain ⟨k0, vs⟩ := hd
    intro hpair
    rw [List.pairwise_cons] at hpair
    obtain ⟨hlt, htl⟩ := hpair
    simp only [push_back]
    split_ifs with h1 h2
    · have h0 : qLookup ((k0, vs) :: tl) k = [] := by
        apply qLookup_eq_nil_of_lt
        intro b hb
        rcases List.mem_cons.mp hb with rfl | hb'
        · exact h1
        · exact lt_trans h1 (hlt b hb')
      rw [h0]
      simp [qLookup]
    · subst h2
      simp [qLookup]
    · simp only [qLookup]
      have hne : k ≠ k0 := h2
      rw [if_neg hne, if_neg hne]
      exact ih htl

/-- Pushing leaves every other key's bucket unchanged. -/
theorem qLookup_push_back_other {K V : Type} [LinearOrder K] (k k' : K) (v : V)
    (hk : k' ≠ k) :
    ∀ q : List (K × List V), qLookup (push_back q k v) k' = qLookup q k' := by
  intro q
  induction q with
  | nil => simp [push_back, qLookup, hk]
  | cons hd tl ih =>
    obtain ⟨k0, vs⟩ := hd
    simp only [push_back]
    split_ifs with h1 h2
    · simp only [qLookup]
      rw [if_neg hk]
    · subst h2
      simp only [qLookup]
      rw [if_neg hk, if_neg hk]
    · simp only [qLookup]
      by_cases he : k' = k0
      · rw [if_pos he, if_pos he]
      · rw [if_neg he, if_neg he]
        exact ih

/-- Characterisation of `pop_first_back` on a well-formed queue: `none` iff
the queue is empty, otherwise the front of the smallest key's bucket is
removed and the key disappears when its bucket empties. -/
theorem pop_first_back_spec {K V : Type} [LinearOrder K]
    (q : List (K × List V)) (hq : QWF q) :
    (pop_first_back q = none ↔ ∀ k, qLookup q k = []) ∧
    (∀ (v : V) (q' : List (K × List V)), pop_first_back q = some (v, q') →
      ∃ k, qLookup q k ≠ [] ∧ (∀ k', qLookup q k' ≠ [] → k ≤ k') ∧
        qLookup q k = v :: qLookup q' k ∧
        (∀ k', k' ≠ k → qLookup q' k' = qLookup q k') ∧
        (qLookup q' k = [] → ∀ b ∈ q', b.1 ≠ k)) := by
  obtain ⟨hpair, hne⟩ := hq
  cases q with
  | nil =>
    constructor
    · exact ⟨fun _ k => rfl, fun _ => rfl⟩
    · intro v q' h; cases h
  | cons hd rest =>
    obtain ⟨k0, vs⟩ := hd
    cases vs with
    | nil => exact absurd rfl (hne (k0, []) (List.mem_cons_self _ _))
    | cons v0 tail =>
      rw [List.pairwise_cons] at hpair
      obtain ⟨hlt, hrest⟩ := hpair
      have hrest_nil : qLookup rest k0 = [] :=
        qLookup_eq_nil_of_lt rest k0 fun b hb => hlt b hb
      have hself : qLookup ((k0, v0 :: tail) :: rest) k0 = v0 :: tail := by
        simp [qLookup]
      constructor
      · constructor
        · intro h
          cases tail <;> simp [pop_first_back] at h
        · intro hall
          have := hall k0
          rw [hself] at this
          cases this
      · intro v q' h
        simp only [pop_first_back] at h
        refine ⟨k0, ?_, ?_, ?_, ?_, ?_⟩
        · rw [hself]; simp
        · intro k' hk'
          simp only [qLookup] at hk'
          by_cases he : k' = k0
          · exact le_of_eq he.symm
          · rw [if_neg he] at hk'
            obtain ⟨b, hb, hbe⟩ := qLookup_ne_nil_mem rest k' hk'
            exact le_of_lt (hbe ▸ hlt b hb)
        · cases tail with
          | nil =>
            cases h
            rw [hself, hrest_nil]
          | cons t ts =>
            cases h
            rw [hself]
            simp [qLookup]
        · intro k' hk'
          cases tail with
          | nil =>
            cases h
            simp only [qLookup]
            rw [if_neg hk']
          | cons t ts =>
            cases h
            simp only [qLookup]
            rw [if_neg hk', if_neg hk']
        · intro hnil b hb
          cases tail with
          | nil =>
            cases h
            exact ne_of_gt (hlt b hb)
          | cons t ts =>
            cases h
            rw [show qLookup ((k0, t :: ts) :: rest) k0 = t :: ts by simp [qLookup]] at hnil
            cases hnil

/-- Operations on the queue, for stating laws over arbitrary histories. -/
inductive QOp (K V : Type) where
  | push (k : K) (v : V)
  | pop

/-- Apply one operation (a pop's return value is discarded). -/
def apply_op {K V : Type} [LinearOrder K] (q : List (K × List V)) :
    QOp K V → List (K × List V)
  | .push k v => push_back q k v
  | .pop =>
    match pop_first_back q with
    | none => q
    | some (_, q') => q'

/-- The queue after a history of operations, starting empty
(`BTreeKeyValues::default`). -/
def apply_ops {K V : Type} [LinearOrder K] (ops : List (QOp K V)) :
    List (K × List V) :=
  ops.foldl apply_op []

/-- Every history yields a well-formed queue. -/
theorem apply_ops_wf {K V : Type} [LinearOrder K] (ops : List (QOp K V)) :
    QWF (apply_ops ops) := by
  suffices h : ∀ (ops : List (QOp K V)) (q : List (K × List V)), QWF q →
      QWF (ops.foldl apply_op q) by
    exact h ops [] ⟨List.Pairwise.nil, by simp⟩
  intro ops
  induction ops with
  | nil => intro q hq; exact hq
  | cons op rest ih =>
    intro q hq
    apply ih
    cases op with
    | push k v => exact qwf_push_back q k v hq
    | pop =>
      simp only [apply_op]
      cases hp : pop_first_back q with
      | none => exact hq
      | some r => exact qwf_pop_first_back q r.1 r.2 hq (by rw [hp])

/-- C7: after any history of `push_back`/`pop_first_back` operations,
`pop_first_back` returns `none` exactly on the empty queue; otherwise it
removes and returns the front (earliest-inserted, since pushes append at the
back — third conjunct) value of the smallest key currently present, leaves
all other keys untouched, and a key whose bucket empties no longer appears. -/
theorem c7_queue_laws {K V : Type} [LinearOrder K] (ops : List (QOp K V)) :
    (pop_first_back (apply_ops ops) = none ↔ ∀ k, qLookup (apply_ops ops) k = []) ∧
    (∀ (v : V) (q' : List (K × List V)), pop_first_back (apply_ops ops) = some (v, q') →
      ∃ k, qLookup (apply_ops ops) k ≠ [] ∧
        (∀ k', qLookup (apply_ops ops) k' ≠ [] → k ≤ k') ∧
        qLookup (apply_ops ops) k = v :: qLookup q' k ∧
        (∀ k', k' ≠ k → qLookup q' k' = qLookup (apply_ops ops) k') ∧
        (qLookup q' k = [] → ∀ b ∈ q', b.1 ≠ k)) ∧
    (∀ (k : K) (v : V),
      qLookup (apply_ops (ops ++ [.push k v])) k = qLookup (apply_ops ops) k ++ [v] ∧
      ∀ k', k' ≠ k →
        qLookup (apply_ops (ops ++ [.push k v])) k' = qLookup (apply_ops ops) k') := by
  have hwf := apply_ops_wf ops
  refine ⟨(pop_first_back_spec _ hwf).1, (pop_first_back_spec _ hwf).2, ?_⟩
  intro k v
  have happ : apply_ops (ops ++ [QOp.push k v]) = push_back (apply_ops ops) k v := by
    simp [apply_ops, List.foldl_append, apply_op]
  rw [happ]
  exact ⟨qLookup_push_back_self k v _ hwf.1,
    fun k' hk' => qLookup_push_back_other k k' v hk' _⟩

/-- A concrete queue history: pushes under keys 5, 3, 3. -/
def ops0 : List (QOp Int Nat) := [.push 5 0, .push 3 1, .push 3 2]

/-- C7 witness: the queue laws applied to the history `ops0`, whose pop
returns value 1 (the earliest push under the smallest key 3). -/
theorem c7_queue_laws_witness :
    ∃ k : Int, qLookup (apply_ops ops0) k ≠ [] ∧
      (∀ k', qLookup (apply_ops ops0) k' ≠ [] → k ≤ k') ∧
      qLookup (apply_ops ops0) k = 1 :: qLookup [((3 : Int), [2]), (5, [0])] k ∧
      (∀ k', k' ≠ k →
        qLookup [((3 : Int), [2]), (5, [0])] k' = qLookup (apply_ops ops0) k') ∧
      (qLookup [((3 : Int), [2]), (5, [0])] k = [] →
        ∀ b ∈ [((3 : Int), [(2 : Nat)]), (5, [0])], b.1 ≠ k) :=
  (c7_queue_laws ops0).2.1 1 [(3, [2]), (5, [0])] rfl

/-! ### C10, C9, C6 — `add_passage` as a whole -/

/-- A rooms table binding id 2 to `room2`. -/
def roomsR : List (RoomId × Room) := [(2, room2)]

/-- A passage towards room 2 with no start directions (so routing exhausts
its queue immediately). -/
def passageND : Passage := ⟨⟨1, 1, 1⟩, [], 7, 2, 2⟩

/-- A voxel map with `room2` committed and routing bounds around it. -/
def vmB : VoxelMap := ⟨(vmE.add_room room2).2.map, ⟨-4, -4, -4⟩, ⟨8, 8, 8⟩⟩

/-- A passage from (2,0,0) heading left towards room 2. -/
def passageS : Passage := ⟨⟨2, 0, 0⟩, [.left], 1, 2, 2⟩

/-- Sanity run of the whole router model: the corridor towards `room2`
commits after two loop iterations, writing a passage floor and space column
at x = 1 and leaving the room cell intact. -/
example :
    (VoxelMap.add_passage 2 vmB passageS roomsR).map
      (fun r => (r.1.isOk, r.2.map ⟨1, -1, 0⟩, r.2.map ⟨1, 0, 0⟩,
        r.2.map ⟨1, 1, 0⟩, r.2.map ⟨0, 0, 0⟩)) =
    some (true, some .passageFloor, some .passageSpace, some .passageSpace,
      some (.roomBottomSpace 2)) := rfl

/-- C10: `add_passage` (at any fuel) yields `NoRoom` exactly when the end
room id is absent from the rooms table; the reported id is then the end room
id and the map is untouched; and the error is produced before any routing
work — fuel 0 already returns it.  The start room id is never consulted, so
`NoRoom` never reports it. -/
theorem c10_add_passage_no_room (fuel : Nat) (vm : VoxelMap) (passage : Passage)
    (rooms : List (RoomId × Room)) (res : Except VoxelMapError Unit × VoxelMap)
    (h : VoxelMap.add_passage fuel vm passage rooms = some res) :
    ((∃ rid, res.1 = .error (.noRoom rid)) ↔ rooms.lookup passage.end_room_id = none) ∧
    (∀ rid : RoomId, res.1 = .error (.noRoom rid) →
      rid = passage.end_room_id ∧ res.2 = vm) ∧
    (rooms.lookup passage.end_room_id = none →
      VoxelMap.add_passage 0 vm passage rooms =
        some (.error (.noRoom passage.end_room_id), vm)) := by
  simp only [VoxelMap.add_passage] at h
  cases hl : rooms.lookup passage.end_room_id with
  | none =>
    rw [hl] at h
    cases h
    refine ⟨⟨fun _ => rfl, fun _ => ⟨passage.end_room_id, rfl⟩⟩, ?_, ?_⟩
    · intro rid hr
      simp only [Except.error.injEq, VoxelMapError.noRoom.injEq] at hr
      exact ⟨hr.symm, rfl⟩
    · intro _
      simp [VoxelMap.add_passage, hl]
  | some end_room =>
    rw [hl] at h
    dsimp only at h
    cases hloop : router_loop (router_ctx vm end_room passage) fuel
        ⟨seed_queue end_room passage, fun _ => []⟩ with
    | committed m =>
      rw [hloop] at h
      cases h
      refine ⟨⟨?_, ?_⟩, ?_, ?_⟩
      · rintro ⟨rid, hr⟩; cases hr
      · intro hn; cases hn
      · intro rid hr; cases hr
      · intro hn; cases hn
    | unreachable =>
      rw [hloop] at h
      cases h
      refine ⟨⟨?_, ?_⟩, ?_, ?_⟩
      · rintro ⟨rid, hr⟩
        simp only [Except.error.injEq] at hr
        cases hr
      · intro hn; cases hn
      · intro rid hr
        simp only [Except.error.injEq] at hr
        cases hr
      · intro hn; cases hn
    | noFuel =>
      rw [hloop] at h
      cases h

/-- C10 witness: the theorem applied to a call with an empty rooms table. -/
theorem c10_add_passage_no_room_witness :
    VoxelMap.add_passage 0 vmE passage0 [] =
      some (.error (.noRoom passage0.end_room_id), vmE) :=
  (c10_add_passage_no_room 0 vmE passage0 []
    (.error (.noRoom 9), vmE) rfl).2.2 rfl

/-- C9: routing consults nothing besides its arguments (in particular no
randomness source), so two calls on extensionally equal committed maps with
the same bounds, passage descriptor and rooms table return the same result
and the same committed map. -/
theorem c9_add_passage_deterministic (fuel : Nat) (vm1 vm2 : VoxelMap)
    (passage : Passage) (rooms : List (RoomId × Room))
    (hmap : ∀ p, vm1.map p = vm2.map p) (hs : vm1.vstart = vm2.vstart)
    (he : vm1.vend = vm2.vend) :
    VoxelMap.add_passage fuel vm1 passage rooms =
      VoxelMap.add_passage fuel vm2 passage rooms := by
  have hvm : vm1 = vm2 := by
    cases vm1
    cases vm2
    simp only [VoxelMap.mk.injEq]
    exact ⟨funext hmap, hs, he⟩
  rw [hvm]

/-- A map extensionally equal to `vmE`'s but written differently. -/
def vmE2 : VoxelMap :=
  ⟨fun p => (none : Option VoxelType).or (vmE.map p), vmE.vstart, vmE.vend⟩

/-- C9 witness: determinism applied to two distinct presentations of the
same committed map. -/
theorem c9_add_passage_deterministic_witness :
    VoxelMap.add_passage 3 vmE passage0 [] = VoxelMap.add_passage 3 vmE2 passage0 [] :=
  c9_add_passage_deterministic 3 vmE vmE2 passage0 [] (fun _ => rfl) rfl rfl

/-- A committed step outcome names the dequeued route exactly: the step
popped `route` from the queue, the committed map found the end room's
`RoomBottomSpace` at `route.point`, and the result is `route`'s proposal
merged over the committed map. -/
theorem router_step_committed_spec (ctx : RouterCtx) (s : RouterState) (m : VMap)
    (h : router_step ctx s = .committed m) :
    ∃ (route : Route) (q' : List (Int × List Route)),
      pop_first_back s.queue = some (route, q') ∧
      ctx.selfMap route.point = some (.roomBottomSpace ctx.endRoom.id) ∧
      m = mergeProposal route.map ctx.selfMap := by
  simp only [router_step] at h
  cases hpop : pop_first_back s.queue with
  | none => rw [hpop] at h; cases h
  | some r =>
    obtain ⟨route, q'⟩ := r
    rw [hpop] at h
    dsimp only at h
    by_cases h1 : route.point.x < ctx.vstart.x ∨ route.point.y < ctx.vstart.y
        ∨ route.point.z < ctx.vstart.z ∨ ctx.vend.x ≤ route.point.x
        ∨ ctx.vend.y ≤ route.point.y ∨ ctx.vend.z ≤ route.point.z
    · rw [if_pos h1] at h; cases h
    · rw [if_neg h1] at h
      by_cases h2 : ctx.selfMap route.point = some (.roomBottomSpace ctx.endRoom.id)
      · rw [if_pos h2] at h
        cases h
        exact ⟨route, q', rfl, h2, rfl⟩
      · rw [if_neg h2] at h
        rcases hupd : route_map_update (s.routeMap route.point) route.key route.cost
            with _ | l' <;> rw [hupd] at h <;> dsimp only at h
        · cases h
        · cases hkey : route.key with
          | parallelShift movable_dirs =>
            rw [hkey] at h
            dsimp only at h
            rcases hcells : add_passage_cells route.point ctx.height ctx.selfMap route.map
                with _ | wm <;> rw [hcells] at h <;> cases h
          | stair direction =>
            rw [hkey] at h
            dsimp only at h
            rcases hcells : add_stair_cells route.point ctx.height direction ctx.selfMap route.map
                with _ | wm <;> rw [hcells] at h <;> cases h

/-- A committed loop outcome comes from an actual iteration of the run: some
iterate of the loop's step function from the start state commits `m`. -/
theorem router_loop_committed_iter (ctx : RouterCtx) :
    ∀ (fuel : Nat) (s : RouterState) (m : VMap),
      router_loop ctx fuel s = .committed m →
      ∃ n : Nat, router_step ctx (router_iter ctx n s) = .committed m := by
  intro fuel
  induction fuel with
  | zero => intro s m h; cases h
  | succ k ih =>
    intro s m h
    simp only [router_loop] at h
    cases hstep : router_step ctx s with
    | committed m' =>
      rw [hstep] at h
      cases h
      exact ⟨0, hstep⟩
    | unreachable => rw [hstep] at h; cases h
    | next s' =>
      rw [hstep] at h
      obtain ⟨n, hn⟩ := ih s' m h
      refine ⟨n + 1, ?_⟩
      have hadv : router_advance ctx s = s' := by
        unfold router_advance
        rw [hstep]
      rw [show router_iter ctx (n + 1) s = router_iter ctx n (router_advance ctx s)
        from rfl, hadv]
      exact hn

/-- C6: `add_passage` leaves the committed map untouched (and the bounds
unchanged) on every error; on success the committed map is changed exactly
by inserting the successful route's proposal entries: the route actually
dequeued at some iteration `n` of this very run, whose point holds the end
room's `RoomBottomSpace` in the committed map (the goal check), and every
cell outside that route's proposal keeps its previous classification while
proposal cells take the proposal's value. -/
theorem c6_add_passage_frame (fuel : Nat) (vm : VoxelMap) (passage : Passage)
    (rooms : List (RoomId × Room)) (res : Except VoxelMapError Unit × VoxelMap)
    (h : VoxelMap.add_passage fuel vm passage rooms = some res) :
    (∀ e : VoxelMapError, res.1 = .error e → res.2 = vm) ∧
    (res.1 = .ok () → res.2.vstart = vm.vstart ∧ res.2.vend = vm.vend ∧
      ∃ (end_room : Room) (n : Nat) (route : Route) (q' : List (Int × List Route)),
        rooms.lookup passage.end_room_id = some end_room ∧
        pop_first_back ((router_iter (router_ctx vm end_room passage) n
          ⟨seed_queue end_room passage, fun _ => []⟩).queue) = some (route, q') ∧
        vm.map route.point = some (.roomBottomSpace end_room.id) ∧
        ∀ p, res.2.map p = (route.map p).or (vm.map p)) := by
  simp only [VoxelMap.add_passage] at h
  cases hl : rooms.lookup passage.end_room_id with
  | none =>
    rw [hl] at h
    cases h
    exact ⟨fun e _ => rfl, fun hok => by cases hok⟩
  | some end_room =>
    rw [hl] at h
    dsimp only at h
    cases hloop : router_loop (router_ctx vm end_room passage) fuel
        ⟨seed_queue end_room passage, fun _ => []⟩ with
    | committed m =>
      rw [hloop] at h
      cases h
      constructor
      · intro e he
        cases he
      · intro _
        obtain ⟨n, hstep⟩ := router_loop_committed_iter _ fuel _ m hloop
        obtain ⟨route, q', hpop, hgoal, hm⟩ :=
          router_step_committed_spec _ _ m hstep
        refine ⟨rfl, rfl, end_room, n, route, q', rfl, hpop, hgoal, fun p => ?_⟩
        rw [hm]
        rfl
    | unreachable =>
      rw [hloop] at h
      cases h
      exact ⟨fun e _ => rfl, fun hok => by cases hok⟩
    | noFuel =>
      rw [hloop] at h
      cases h

/-- C6 witness: the frame condition applied to two concrete runs — the
failing run on `passageND` (queue exhausted, map untouched) and the
successful two-iteration run of `passageS` towards `room2`, exhibiting the
dequeued goal route and the merge of its proposal. -/
theorem c6_add_passage_frame_witness :
    ((Except.error VoxelMapError.unreachable : Except VoxelMapError Unit), vmE).2 = vmE ∧
    ∃ (end_room : Room) (n : Nat) (route : Route) (q' : List (Int × List Route)),
      roomsR.lookup passageS.end_room_id = some end_room ∧
      pop_first_back ((router_iter (router_ctx vmB end_room passageS) n
        ⟨seed_queue end_room passageS, fun _ => []⟩).queue) = some (route, q') ∧
      vmB.map route.point = some (.roomBottomSpace end_room.id) ∧
      ∀ p, ((VoxelMap.add_passage 2 vmB passageS roomsR).getD
        (.error .unreachable, vmB)).2.map p = (route.map p).or (vmB.map p) :=
  ⟨(c6_add_passage_frame 1 vmE passageND roomsR
      (.error .unreachable, vmE) rfl).1 .unreachable rfl,
   (((c6_add_passage_frame 2 vmB passageS roomsR
      ((VoxelMap.add_passage 2 vmB passageS roomsR).getD (.error .unreachable, vmB))
      rfl).2) rfl).2.2⟩

/-! ### C1, C3 — the dominance invariant of the router's per-point lists

Every route key the router ever constructs is one of the seven keys in
`gks`; on these, `RouteKey.contains` degenerates to equality, and the
dominance scan keeps per-point keys pairwise distinct. -/

/-- On the generable keys, containment implies equality. -/
theorem gks_contains_eq : ∀ a ∈ gks, ∀ b ∈ gks, a.contains b = true → a = b := by
  decide

/-- Every generable key contains itself. -/
theorem gks_contains_refl : ∀ a ∈ gks, a.contains a = true := by
  decide

/-- Every freshly built `ParallelShift` key is generable. -/
theorem next_movable_dirs_mem (d : Direction4) :
    RouteKey.parallelShift (next_movable_dirs d) ∈ gks := by
  cases d <;> decide

/-- Every `Stair` key is generable. -/
theorem stair_mem (d : Direction4) : RouteKey.stair d ∈ gks := by
  cases d <;> decide

/-- All values in all buckets satisfy `P`. -/
def queue_all {K V : Type} (P : V → Prop) (q : List (K × List V)) : Prop :=
  ∀ b ∈ q, ∀ w ∈ b.2, P w

/-- A route whose key the router can construct. -/
def good_route (r : Route) : Prop := r.key ∈ gks

/-- Accepted lists with pairwise-distinct generable keys. -/
def good_list (l : List (RouteKey × Int)) : Prop :=
  (l.map Prod.fst).Nodup ∧ ∀ e ∈ l, e.1 ∈ gks

/-- The router-state invariant. -/
def router_inv (s : RouterState) : Prop :=
  queue_all good_route s.queue ∧ ∀ p, good_list (s.routeMap p)

/-- `push_back` preserves `queue_all`. -/
theorem queue_all_push_back {K V : Type} [LinearOrder K] (P : V → Prop) :
    ∀ (q : List (K × List V)) (k : K) (v : V),
      queue_all P q → P v → queue_all P (push_back q k v) := by
  intro q k v
  induction q with
  | nil =>
    intro _ hv b hb w hw
    rcases List.mem_singleton.mp hb with rfl
    rcases List.mem_singleton.mp hw with rfl
    exact hv
  | cons hd tl ih =>
    intro hq hv b hb w hw
    simp only [push_back] at hb
    split_ifs at hb with h1 h2
    · rcases List.mem_cons.mp hb with rfl | hb'
      · rcases List.mem_singleton.mp hw with rfl
        exact hv
      · exact hq b hb' w hw
    · rcases List.mem_cons.mp hb with rfl | hb'
      · rcases List.mem_append.mp hw with hw' | hw'
        · exact hq hd (List.mem_cons_self _ _) w hw'
        · rcases List.mem_singleton.mp hw' with rfl
          exact hv
      · exact hq b (List.mem_cons_of_mem _ hb') w hw
    · rcases List.mem_cons.mp hb with rfl | hb'
      · exact hq hd (List.mem_cons_self _ _) w hw
      · exact ih (fun b' hb'' w' hw' => hq b' (List.mem_cons_of_mem _ hb'') w' hw') hv b hb' w hw

/-- `pop_first_back` yields a stored value and preserves `queue_all`. -/
theorem queue_all_pop_first_back {K V : Type} (P : V → Prop) :
    ∀ (q : List (K × List V)) (v : V) (q' : List (K × List V)),
      pop_first_back q = some (v, q') → queue_all P q →
      P v ∧ queue_all P q' := by
  intro q
  induction q with
  | nil => intro v q' h _; cases h
  | cons hd rest ih =>
    obtain ⟨k0, vs⟩ := hd
    intro v q' h hq
    cases vs with
    | nil =>
      simp only [pop_first_back] at h
      obtain ⟨hv, hq'⟩ := ih v q' h
        fun b hb w hw => hq b (List.mem_cons_of_mem _ hb) w hw
      exact ⟨hv, hq'⟩
    | cons v0 tail =>
      cases tail with
      | nil =>
        simp only [pop_first_back] at h
        cases h
        refine ⟨hq (k0, [v]) (List.mem_cons_self _ _) v (List.mem_singleton.mpr rfl), ?_⟩
        exact fun b hb w hw => hq b (List.mem_cons_of_mem _ hb) w hw
      | cons t ts =>
        simp only [pop_first_back] at h
        cases h
        refine ⟨hq (k0, v :: t :: ts) (List.mem_cons_self _ _) v (List.mem_cons_self _ _), ?_⟩
        intro b hb w hw
        rcases List.mem_cons.mp hb with rfl | hb'
        · exact hq (k0, v :: t :: ts) (List.mem_cons_self _ _) w (List.mem_cons_of_mem _ hw)
        · exact hq b (List.mem_cons_of_mem _ hb') w hw

/-- Folding a `queue_all`-preserving function preserves `queue_all`. -/
theorem queue_all_foldl {K V α : Type} (P : V → Prop)
    (f : List (K × List V) → α → List (K × List V))
    (hf : ∀ q a, queue_all P q → queue_all P (f q a)) :
    ∀ (l : List α) (q : List (K × List V)),
      queue_all P q → queue_all P (l.foldl f q) := by
  intro l
  induction l with
  | nil => intro q hq; exact hq
  | cons a rest ih => intro q hq; exact ih _ (hf q a hq)

/-- A replacement index returned by the dominance scan is in range and names
an entry the new key contains. -/
theorem scan_routes_replace_spec :
    ∀ (l : List (RouteKey × Int)) (k : RouteKey) (c : Int) (i : Nat),
      scan_routes l k c = .replaceAt i →
      ∃ hi : i < l.length, k.contains (l.get ⟨i, hi⟩).1 = true := by
  intro l k c
  induction l with
  | nil => intro i h; cases h
  | cons hd tl ih =>
    obtain ⟨k0, c0⟩ := hd
    intro i h
    simp only [scan_routes] at h
    split_ifs at h with h1 h2
    · cases h
      have h2' : k.contains k0 = true ∧ decide (c < c0) = true := by simpa using h2
      exact ⟨Nat.succ_pos _, h2'.1⟩
    · cases hscan : scan_routes tl k c with
      | omitted => rw [hscan] at h; cases h
      | replaceAt j =>
        rw [hscan] at h
        cases h
        obtain ⟨hj, hc⟩ := ih j hscan
        exact ⟨Nat.succ_lt_succ hj, hc⟩
      | append => rw [hscan] at h; cases h

/-- When the scan appends, the new key equals no stored key (on generable
keys: a stored equal key would have triggered omit or replace). -/
theorem scan_routes_append_spec :
    ∀ (l : List (RouteKey × Int)) (k : RouteKey) (c : Int),
      (∀ e ∈ l, e.1 ∈ gks) → k ∈ gks →
      scan_routes l k c = .append → ∀ e ∈ l, e.1 ≠ k := by
  intro l k c
  induction l with
  | nil => intro _ _ _ e he; cases he
  | cons hd tl ih =>
    obtain ⟨k0, c0⟩ := hd
    intro hall hk h e he
    simp only [scan_routes] at h
    split_ifs at h with h1 h2
    rcases List.mem_cons.mp he with rfl | he'
    · intro hek
      have hk0 : k0 ∈ gks := hall (k0, c0) (List.mem_cons_self _ _)
      have hrefl : k0.contains k0 = true := gks_contains_refl k0 hk0
      rcases le_or_lt c0 c with hle | hlt
      · refine h1 ?_
        rw [show ((k0, c0) : RouteKey × Int).1 = k0 from rfl] at hek
        rw [hek] at hrefl ⊢
        simp [hrefl, hle]
      · refine h2 ?_
        rw [show ((k0, c0) : RouteKey × Int).1 = k0 from rfl] at hek
        rw [hek] at hrefl ⊢
        simp [hrefl, hlt]
    · cases hscan : scan_routes tl k c with
      | omitted => rw [hscan] at h; cases h
      | replaceAt j => rw [hscan] at h; cases h
      | append =>
        exact ih (fun e' he'' => hall e' (List.mem_cons_of_mem _ he'')) hk hscan e he'

/-- Setting an index to the value it already holds is the identity. -/
theorem list_set_self {α : Type} :
    ∀ (l : List α) (n : Nat) (a : α), l.get? n = some a → l.set n a = l := by
  intro l
  induction l with
  | nil => intro n a h; cases h
  | cons x xs ih =>
    intro n a h
    cases n with
    | zero =>
      simp only [List.get?] at h
      cases h
      rfl
    | succ n =>
      simp only [List.get?] at h
      simp only [List.set]
      rw [ih n a h]

/-- The dominance update preserves `good_list` for a generable key: a
replacement rewrites an entry with the same key, an append introduces a key
not yet present. -/
theorem route_map_update_good (l : List (RouteKey × Int)) (k : RouteKey) (c : Int)
    (l' : List (RouteKey × Int)) (hl : good_list l) (hk : k ∈ gks)
    (h : route_map_update l k c = some l') : good_list l' := by
  simp only [route_map_update] at h
  split_ifs at h with hcap
  cases hscan : scan_routes l k c with
  | omitted => rw [hscan] at h; cases h
  | replaceAt i =>
    rw [hscan] at h
    cases h
    obtain ⟨hi, hcont⟩ := scan_routes_replace_spec l k c i hscan
    have hkey_eq : (l.get ⟨i, hi⟩).1 = k :=
      (gks_contains_eq k hk (l.get ⟨i, hi⟩).1 (hl.2 _ (l.get_mem i hi)) hcont).symm
    constructor
    · rw [List.map_set]
      have hset : (l.map Prod.fst).set i k = l.map Prod.fst := by
        apply list_set_self
        rw [List.get?_map, List.get?_eq_get hi]
        simp only [Option.map]
        rw [hkey_eq]
      rw [hset]
      exact hl.1
    · intro e he
      rcases List.mem_or_eq_of_mem_set he with he' | rfl
      · exact hl.2 e he'
      · exact hk
  | append =>
    rw [hscan] at h
    cases h
    have hnot := scan_routes_append_spec l k c hl.2 hk hscan
    constructor
    · rw [List.map_append]
      rw [List.nodup_append]
      refine ⟨hl.1, List.nodup_singleton _, ?_⟩
      intro a ha hb
      rcases List.mem_singleton.mp hb with rfl
      obtain ⟨e, he, hee⟩ := List.mem_map.mp ha
      exact hnot e he hee
    · intro e he
      rcases List.mem_append.mp he with he' | he'
      · exact hl.2 e he'
      · rcases List.mem_singleton.mp he' with rfl
        exact hk

/-- `push_pair` preserves the queue invariant: both pushed routes carry
generable keys. -/
theorem queue_all_push_pair (endRoom : Room) (q : List (Int × List Route))
    (np : Pt) (pc : Int) (wm : VMap) (m : Direction4)
    (hq : queue_all good_route q) :
    queue_all good_route (push_pair endRoom q np pc wm m) := by
  unfold push_pair
  exact queue_all_push_back good_route _ _ _
    (queue_all_push_back good_route _ _ _ hq (next_movable_dirs_mem m)) (stair_mem m)

/-- One accepted loop iteration preserves the router invariant. -/
theorem router_step_inv (ctx : RouterCtx) (s s' : RouterState)
    (hinv : router_inv s) (h : router_step ctx s = .next s') : router_inv s' := by
  obtain ⟨hq, hrm⟩ := hinv
  simp only [router_step] at h
  cases hpop : pop_first_back s.queue with
  | none => rw [hpop] at h; cases h
  | some r =>
    obtain ⟨route, q'⟩ := r
    rw [hpop] at h
    dsimp only at h
    obtain ⟨hroute, hq'⟩ := queue_all_pop_first_back good_route s.queue route q' hpop hq
    by_cases h1 : route.point.x < ctx.vstart.x ∨ route.point.y < ctx.vstart.y
        ∨ route.point.z < ctx.vstart.z ∨ ctx.vend.x ≤ route.point.x
        ∨ ctx.vend.y ≤ route.point.y ∨ ctx.vend.z ≤ route.point.z
    · rw [if_pos h1] at h
      cases h
      exact ⟨hq', hrm⟩
    · rw [if_neg h1] at h
      by_cases h2 : ctx.selfMap route.point = some (.roomBottomSpace ctx.endRoom.id)
      · rw [if_pos h2] at h
        cases h
      · rw [if_neg h2] at h
        cases hupd : route_map_update (s.routeMap route.point) route.key route.cost with
        | none =>
          rw [hupd] at h
          dsimp only at h
          cases h
          exact ⟨hq', hrm⟩
        | some l' =>
          rw [hupd] at h
          dsimp only at h
          have hl' : good_list l' :=
            route_map_update_good _ _ _ _ (hrm route.point) hroute hupd
          have hrm' : ∀ p : Pt,
              good_list (if p = route.point then l' else s.routeMap p) := by
            intro p
            by_cases hp : p = route.point
            · rw [if_pos hp]; exact hl'
            · rw [if_neg hp]; exact hrm p
          cases hkey : route.key with
          | parallelShift movable_dirs =>
            rw [hkey] at h
            dsimp only at h
            cases hcells : add_passage_cells route.point ctx.height ctx.selfMap route.map with
            | none =>
              rw [hcells] at h
              cases h
              exact ⟨hq', hrm'⟩
            | some wm =>
              rw [hcells] at h
              cases h
              refine ⟨?_, hrm'⟩
              exact queue_all_foldl good_route _
                (fun q m hq => queue_all_push_pair ctx.endRoom q _ _ _ m hq)
                movable_dirs q' hq'
          | stair direction =>
            rw [hkey] at h
            dsimp only at h
            cases hcells : add_stair_cells route.point ctx.height direction ctx.selfMap route.map with
            | none =>
              rw [hcells] at h
              cases h
              exact ⟨hq', hrm'⟩
            | some wm =>
              rw [hcells] at h
              cases h
              exact ⟨queue_all_push_pair ctx.endRoom q' _ _ _ direction hq', hrm'⟩

/-- The absorbing step preserves the router invariant. -/
theorem router_advance_inv (ctx : RouterCtx) (s : RouterState)
    (hinv : router_inv s) : router_inv (router_advance ctx s) := by
  unfold router_advance
  cases hstep : router_step ctx s with
  | committed m => exact hinv
  | unreachable => exact hinv
  | next s' => exact router_step_inv ctx s s' hinv hstep

/-- Every iterate of the loop preserves the router invariant. -/
theorem router_iter_inv (ctx : RouterCtx) :
    ∀ (n : Nat) (s : RouterState), router_inv s → router_inv (router_iter ctx n s) := by
  intro n
  induction n with
  | zero => intro s h; exact h
  | succ k ih => intro s h; exact ih _ (router_advance_inv ctx s h)

/-- The initial seeding only enqueues generable keys. -/
theorem seed_queue_good (endRoom : Room) (passage : Passage) :
    queue_all good_route (seed_queue endRoom passage) := by
  unfold seed_queue
  refine queue_all_foldl good_route _ ?_ passage.start_dirs [] ?_
  · intro q d hq
    exact queue_all_push_back good_route _ _ _
      (queue_all_push_back good_route _ _ _ hq (next_movable_dirs_mem d)) (stair_mem d)
  · intro b hb w hw
    cases hb

/-- The invariant holds for the exact start state of `add_passage`. -/
theorem router_start_inv (endRoom : Room) (passage : Passage) :
    router_inv ⟨seed_queue endRoom passage, fun _ => []⟩ := by
  refine ⟨seed_queue_good endRoom passage, ?_⟩
  intro p
  exact ⟨List.nodup_nil, fun e he => absurd he (List.not_mem_nil e)⟩

/-- No two distinct stored entries (a, ca), (b, cb) satisfy
`a contains b ∧ ca ≤ cb`. -/
def dominance_free (l : List (RouteKey × Int)) : Prop :=
  ∀ (i j : Nat) (hi : i < l.length) (hj : j < l.length), i ≠ j →
    ¬((l.get ⟨i, hi⟩).1.contains (l.get ⟨j, hj⟩).1 = true ∧
      (l.get ⟨i, hi⟩).2 ≤ (l.get ⟨j, hj⟩).2)

/-- Pairwise-distinct generable keys rule out dominance pairs. -/
theorem good_list_dominance_free (l : List (RouteKey × Int)) (h : good_list l) :
    dominance_free l := by
  rintro i j hi hj hne ⟨hcont, _⟩
  have hik := h.2 _ (l.get_mem i hi)
  have hjk := h.2 _ (l.get_mem j hj)
  have heq := gks_contains_eq _ hik _ hjk hcont
  have hmi : i < (l.map Prod.fst).length := by
    rw [List.length_map]; exact hi
  have hmj : j < (l.map Prod.fst).length := by
    rw [List.length_map]; exact hj
  have hge : (l.map Prod.fst).get ⟨i, hmi⟩ = (l.map Prod.fst).get ⟨j, hmj⟩ := by
    rw [List.get_map, List.get_map]
    exact heq
  have := (List.Nodup.get_inj_iff h.1).mp hge
  exact hne (congrArg Fin.val this)

/-- C1: at every point during `add_passage` — after any number of loop
iterations from the search's start state (and hence after every accept,
replace and append performed by the dominance check, which mutates the list
at most once per iteration) — the per-point accepted list never contains two
entries (a, ca), (b, cb) with `a contains b` and ca ≤ cb. -/
theorem c1_dominance_invariant (vm : VoxelMap) (end_room : Room) (passage : Passage)
    (n : Nat) (p : Pt) :
    dominance_free ((router_iter (router_ctx vm end_room passage) n
      ⟨seed_queue end_room passage, fun _ => []⟩).routeMap p) := by
  have hinv := router_iter_inv (router_ctx vm end_room passage) n
    ⟨seed_queue end_room passage, fun _ => []⟩ (router_start_inv end_room passage)
  exact good_list_dominance_free _ (hinv.2 p)

/-- C3 counterexample: a dequeued route at a point whose accepted list
already holds exactly 10 entries is *not* discarded — the update accepts it
and the list grows to 11 entries, because the source guard reads
`exist_routes.len() > 10`. -/
theorem c3_cap_counterexample :
    route_map_update l10c3 (RouteKey.stair .left) 0 =
      some (l10c3 ++ [(RouteKey.stair .left, 0)]) ∧
    l10c3.length = 10 ∧ (l10c3 ++ [(RouteKey.stair .left, 0)]).length = 11 := by
  refine ⟨by decide, by decide, by decide⟩

/-- C3 amended: a dequeued route is discarded by the cap exactly when the
per-point list already holds *more than* 10 entries (so a list can grow to
11 in general); during `add_passage` itself every per-point list holds at
most 7 entries — one per generable key — so neither the 10-entry cap nor the
discard is ever reached. -/
theorem c3_cap_amended :
    (∀ (vm : VoxelMap) (end_room : Room) (passage : Passage) (n : Nat) (p : Pt),
      ((router_iter (router_ctx vm end_room passage) n
        ⟨seed_queue end_room passage, fun _ => []⟩).routeMap p).length ≤ 7) ∧
    (∀ (l : List (RouteKey × Int)) (k : RouteKey) (c : Int),
      10 < l.length → route_map_update l k c = none) := by
  constructor
  · intro vm end_room passage n p
    have hinv := router_iter_inv (router_ctx vm end_room passage) n
      ⟨seed_queue end_room passage, fun _ => []⟩ (router_start_inv end_room passage)
    have hg := hinv.2 p
    set l := (router_iter (router_ctx vm end_room passage) n
      ⟨seed_queue end_room passage, fun _ => []⟩).routeMap p with hldef
    have hsub : (l.map Prod.fst) ⊆ gks := by
      intro a ha
      obtain ⟨e, he, rfl⟩ := List.mem_map.mp ha
      exact hg.2 e he
    have hlen : (l.map Prod.fst).length ≤ gks.length :=
      (List.subperm_of_subset hg.1 hsub).length_le
    rw [List.length_map] at hlen
    exact hlen
  · intro l k c hlen
    simp only [route_map_update]
    rw [if_pos hlen]

/-- C3 witness: the amended cap guard applied to a concrete 11-entry list
(discarded) and the reachable bound at a concrete state. -/
theorem c3_cap_amended_witness :
    route_map_update l11c3 (RouteKey.stair .left) 0 = none ∧
    ((router_iter (router_ctx vmB room2 passageS) 1
      ⟨seed_queue room2 passageS, fun _ => []⟩).routeMap ⟨1, 0, 0⟩).length ≤ 7 :=
  ⟨c3_cap_amended.2 l11c3 (RouteKey.stair .left) 0 (by decide),
   c3_cap_amended.1 vmB room2 passageS 1 ⟨1, 0, 0⟩⟩

end DungeonGen
